import Mathlib

/-!
Verification of the request router and middleware-dispatch engine of a
small HTTP server library.  The functions `parseQueryString`, `matchPath`,
`findRoute`, `joinPaths`, `parseBody` and `handleRequest` are shallow
embeddings of the TypeScript functions of the same names in
`src/router.ts`; the route-tree data model follows `src/types.ts`.
Middleware and handler bodies, which are arbitrary JavaScript functions in
the source, are modelled by a small deep-embedded command language that
can mutate the response object, invoke the `next` continuation, return a
value and throw, which is enough to express the behaviours the
specification talks about.  JavaScript string primitives used by the
source (`String.prototype.split` with a one-character separator,
`decodeURIComponent` restricted to percent escapes, `JSON.parse` as a
validity test, `JSON.stringify` on records of strings) are modelled
explicitly below.
-/

/-- JS `s.split(sep)` for a one-character separator, on the character
list of the string.  `"".split(sep)` is `[""]`, so the result is never
empty. -/
def splitOnChar (sep : Char) : List Char → List (List Char)
  | [] => [[]]
  | c :: cs =>
    if c = sep then [] :: splitOnChar sep cs
    else
      match splitOnChar sep cs with
      | [] => [[c]]
      | p :: ps => (c :: p) :: ps

/-- Value of a hexadecimal digit, if the character is one. -/
def hexDigitVal? (c : Char) : Option Nat :=
  if '0' ≤ c ∧ c ≤ '9' then some (c.toNat - '0'.toNat)
  else if 'a' ≤ c ∧ c ≤ 'f' then some (c.toNat - 'a'.toNat + 10)
  else if 'A' ≤ c ∧ c ≤ 'F' then some (c.toNat - 'A'.toNat + 10)
  else none

/-- Percent-decoding of `%XX` escapes, modelling the JS
`decodeURIComponent` builtin on the ASCII inputs the specification talks
about (escape sequences that do not form a valid `%XX` pair are kept
verbatim; no claim exercises them). -/
def percentDecode : List Char → List Char
  | [] => []
  | '%' :: c₁ :: c₂ :: rest =>
    match hexDigitVal? c₁, hexDigitVal? c₂ with
    | some a, some b => Char.ofNat (16 * a + b) :: percentDecode rest
    | _, _ => '%' :: percentDecode (c₁ :: c₂ :: rest)
  | c :: rest => c :: percentDecode rest

/-- The JS `decodeURIComponent` builtin used by `parseQueryString`. -/
def decodeURIComponent (s : String) : String :=
  ⟨percentDecode s.data⟩

/-- Assignment `record[k] = v` on a JS object modelled as an association
list in insertion order: an existing key is overwritten in place, a new
key is appended. -/
def recInsert : List (String × String) → String → String → List (String × String)
  | [], k, v => [(k, v)]
  | (k', v') :: rest, k, v =>
    if k' = k then (k, v) :: rest else (k', v') :: recInsert rest k v

/-- Embedding of `parseQueryString` from `src/router.ts`: split the query on `&`,
split each pair on `=`, keep the first two pieces, skip pairs with an
empty key, percent-decode key and value; a missing or empty value part
binds the key to `""`. -/
def parseQueryString (queryString : String) : List (String × String) :=
  if queryString = "" then []
  else
    (splitOnChar '&' queryString.data).foldl
      (fun query pair =>
        let parts := splitOnChar '=' pair
        let key := parts.headD []
        let value := parts[1]?
        if key ≠ [] then
          recInsert query (decodeURIComponent ⟨key⟩)
            (match value with
             | some v => if v ≠ [] then decodeURIComponent ⟨v⟩ else ""
             | none => "")
        else query)
      []

/-- Result record of `matchPath`. -/
structure MatchResult where
  matched : Bool
  params : List (String × String)
  deriving Repr, DecidableEq

/-- Split a pattern or path on `/` discarding empty segments, modelling
`s.split("/").filter(Boolean)`. -/
def splitSegs (s : String) : List String :=
  ((splitOnChar '/' s.data).filter (· ≠ [])).map (fun l => ⟨l⟩)

/-- JS `s.startsWith(":")`, the parameter-sigil test of `matchPath`. -/
def startsWithColon (s : String) : Bool :=
  match s.data with
  | ':' :: _ => true
  | _ => false

/-- JS `s.slice(1)`, stripping the parameter sigil. -/
def sliceFrom1 (s : String) : String :=
  ⟨s.data.drop 1⟩

/-- The positional loop of `matchPath`: a pattern segment starting with
`:` binds its name (sigil stripped) to the path segment, any other
segment must be equal; on the first literal mismatch the partially built
parameter record is returned with `matched := false`. -/
def matchSegs : List String → List String → List (String × String) → MatchResult
  | [], [], params => ⟨true, params⟩
  | p :: ps, q :: qs, params =>
    if startsWithColon p then matchSegs ps qs (recInsert params (sliceFrom1 p) q)
    else if p = q then matchSegs ps qs params
    else ⟨false, params⟩
  | _, _, params => ⟨false, params⟩

/-- Embedding of `matchPath` from `src/router.ts`: fail on differing segment counts,
otherwise compare position-wise. -/
def matchPath (pattern path : String) : MatchResult :=
  let patternParts := splitSegs pattern
  let pathParts := splitSegs path
  if patternParts.length ≠ pathParts.length then ⟨false, []⟩
  else matchSegs patternParts pathParts []

/-- Strip the leading and the trailing run of `/` from a character list,
modelling `p.replace(/^\/+|\/+$/g, "")`. -/
def trimSlashesL (l : List Char) : List Char :=
  ((l.dropWhile (· = '/')).reverse.dropWhile (· = '/')).reverse

/-- Join nonempty pieces with a single `/` between them, modelling
`Array.prototype.join("/")`. -/
def interSlash : List (List Char) → List Char
  | [] => []
  | [p] => p
  | p :: ps => p ++ '/' :: interSlash ps

/-- The trimmed nonempty pieces of a list of paths:
`paths.map(trim).filter(Boolean)`. -/
def joinParts (paths : List (List Char)) : List (List Char) :=
  (paths.map trimSlashesL).filter (· ≠ [])

/-- Embedding of `joinPaths` from `src/router.ts` (variadic in the source, a list
here): trim every argument, drop the empty ones, join with `/` and
prepend a leading `/`. -/
def joinPaths (paths : List String) : String :=
  ⟨'/' :: interSlash (joinParts (paths.map String.data))⟩

/-- A value thrown during middleware/handler execution: a JS `Error`
object carrying a `message`, or any non-`Error` value. -/
inductive Thrown where
  | errObj (message : String)
  | nonError
  deriving Repr, DecidableEq

/-- A primitive side effect on the response object, the mutations the
specification's middleware/handler examples perform. -/
inductive Act where
  | setStatus (n : Nat)
  | setHeader (k v : String)
  | endRes (data : Option String)
  deriving Repr, DecidableEq

/-- Deep embedding of a middleware body: a sequence of response effects
that may call the `next` continuation (once, several times, or never),
finish, or throw. -/
inductive MwProg where
  | act (a : Act) (k : MwProg)
  | callNext (k : MwProg)
  | throwE (t : Thrown)
  | done
  deriving Repr, DecidableEq

/-- Deep embedding of a handler body: response effects followed by a
return (`none` models the JS `undefined`; `some s` a defined value whose
JSON serialization is `s`) or a throw. -/
inductive HProg where
  | act (a : Act) (k : HProg)
  | ret (value : Option String)
  | throwE (t : Thrown)
  deriving Repr, DecidableEq

/-- Embedding of `MethodNode` from `src/types.ts`: a bound HTTP method, an optional
path suffix, and a handler. -/
structure MethodNode where
  method : String
  path : Option String
  handler : HProg
  deriving Repr, DecidableEq

/-- The route-tree nodes `findRoute` traverses (`src/types.ts`): route
groups with children and scoped middleware, method endpoints, and any
other node kind, which `findRoute` skips. -/
inductive ServerNode where
  | route (path : String) (children : List ServerNode) (middlewares : List MwProg)
  | methodN (node : MethodNode)
  | other
  deriving Repr

/-- The `MatchedRoute` record returned by `findRoute`. -/
structure MatchedRoute where
  node : MethodNode
  params : List (String × String)
  middlewares : List MwProg
  deriving Repr, DecidableEq

/-- The pattern a method node is checked against:
`methodNode.path ? joinPaths(fullPath, methodNode.path) : fullPath`
(note the JS truthiness test: an empty-string suffix behaves like an
absent one). -/
def methodCheckPath (basePath : String) (suffix : Option String) : String :=
  match suffix with
  | some p => if p ≠ "" then joinPaths [basePath, p] else basePath
  | none => basePath

/-- The inner loop of `findRoute` over a route group's immediate
children: test every direct method child, in declaration order, against
the accumulated prefix plus the endpoint's optional suffix. -/
def checkMethods : List ServerNode → String → String → String → List MwProg →
    Option MatchedRoute
  | [], _, _, _, _ => none
  | ServerNode.methodN mn :: rest, method, fullPath, path, acc =>
    if mn.method = method then
      let m := matchPath (methodCheckPath fullPath mn.path) path
      if m.matched then some ⟨mn, m.params, acc⟩
      else checkMethods rest method fullPath path acc
    else checkMethods rest method fullPath path acc
  | _ :: rest, method, fullPath, path, acc =>
    checkMethods rest method fullPath path acc

mutual

/-- The contribution of a single node to `findRoute`'s loop: a route
group first tests its direct method children, then recurses into all of
its children with the accumulated prefix and middleware; a bare method
node is tested against the current prefix with the middleware
accumulated so far; any other node kind is skipped.  (The source writes
this inline in the `for` loop of `findRoute`; the loop with early
returns is exactly the first-some composition below.) -/
def findRouteNode : ServerNode → String → String → String → List MwProg →
    Option MatchedRoute
  | ServerNode.route p children mws, method, path, basePath, middlewares =>
    let fullPath := joinPaths [basePath, p]
    let accumulated := middlewares ++ mws
    (match checkMethods children method fullPath path accumulated with
     | some r => some r
     | none => findRoute children method path fullPath accumulated)
  | ServerNode.methodN mn, method, path, basePath, middlewares =>
    if mn.method = method then
      let m := matchPath (methodCheckPath basePath mn.path) path
      if m.matched then some ⟨mn, m.params, middlewares⟩ else none
    else none
  | ServerNode.other, _, _, _, _ => none

/-- Embedding of `findRoute` from `src/router.ts`: walk the sibling list in
declaration order, returning the first node whose contribution
matches. -/
def findRoute : List ServerNode → String → String → String → List MwProg →
    Option MatchedRoute
  | [], _, _, _, _ => none
  | node :: rest, method, path, basePath, middlewares =>
    match findRouteNode node method path basePath middlewares with
    | some r => some r
    | none => findRoute rest method path basePath middlewares

end

/-- The response object, following the observable surface the router and
the repository's own test mock use: status code, headers, written
chunks, and the `writableEnded` flag set by `end`. -/
structure Res where
  statusCode : Nat
  headers : List (String × String)
  chunks : List String
  writableEnded : Bool
  deriving Repr, DecidableEq

/-- A fresh response: Node's default status 200, nothing written. -/
def Res.initial : Res := ⟨200, [], [], false⟩

/-- The mutation `res.setHeader(k, v)`. -/
def Res.setHeader (r : Res) (k v : String) : Res :=
  { r with headers := recInsert r.headers k v }

/-- The mutation `res.end(data?)`: append the data if present and truthy, mark the
response finalized. -/
def Res.endWith (r : Res) (data : Option String) : Res :=
  { r with
    chunks :=
      match data with
      | some d => if d ≠ "" then r.chunks ++ [d] else r.chunks
      | none => r.chunks,
    writableEnded := true }

/-- Outcome of `parseBody`: a JSON-decoded value (kept as the buffered
text that decoded) or the raw text fallback; `none` at the use sites
models the `undefined` sentinel. -/
inductive BodyVal where
  | json (text : String)
  | raw (text : String)
  deriving Repr, DecidableEq

/-- Embedding of `RequestContext` from `src/types.ts` (minus the raw handles). -/
structure RequestContext where
  params : List (String × String)
  query : List (String × String)
  path : String
  method : String
  body : Option BodyVal
  deriving Repr, DecidableEq

/-- The per-request execution state of the middleware chain: the request
context, the shared response, the shared middleware cursor `index`, and
two instrumentation fields recording which middlewares were actually
invoked and whether the terminal handler was invoked. -/
structure St where
  ctx : RequestContext
  res : Res
  index : Nat
  firedMws : List Nat
  handlerInvoked : Bool
  deriving Repr, DecidableEq

/-- Apply one response effect. -/
def applyAct (a : Act) (s : St) : St :=
  match a with
  | .setStatus n => { s with res := { s.res with statusCode := n } }
  | .setHeader k v => { s with res := s.res.setHeader k v }
  | .endRes d => { s with res := s.res.endWith d }

/-- Run one middleware body against the state, given the `next`
continuation; a throw aborts the body and carries the state at the
throw. -/
def runMw : MwProg → (St → St × Option Thrown) → St → St × Option Thrown
  | .act a k, next, s => runMw k next (applyAct a s)
  | .callNext k, next, s =>
    match next s with
    | (s', none) => runMw k next s'
    | (s', some t) => (s', some t)
  | .throwE t, _, s => (s, some t)
  | .done, _, s => (s, none)

/-- The `next` continuation of `handleRequest`: if the shared cursor is
within bounds, read the middleware at the cursor, increment the cursor,
and run that middleware with `next` itself as continuation; otherwise
complete immediately.  The fuel argument only bounds the recursion and
is chosen large enough at the call site (the cursor grows strictly on
every firing, so `allMiddlewares.length` firings are the most
possible). -/
def nextFn (allMiddlewares : List MwProg) : Nat → St → St × Option Thrown
  | 0, s => (s, none)
  | fuel + 1, s =>
    if h : s.index < allMiddlewares.length then
      runMw (allMiddlewares.get ⟨s.index, h⟩) (nextFn allMiddlewares fuel)
        { s with index := s.index + 1, firedMws := s.firedMws ++ [s.index] }
    else (s, none)

/-- Run the handler body: effects, then a returned value or a throw. -/
def runHandler : HProg → St → St × Except Thrown (Option String)
  | .act a k, s => runHandler k (applyAct a s)
  | .ret v, s => (s, .ok v)
  | .throwE t, s => (s, .error t)

/-- The lowercase hexadecimal digit character of a value below 16. -/
def hexDigitChar (n : Nat) : Char :=
  if n < 10 then Char.ofNat ('0'.toNat + n) else Char.ofNat ('a'.toNat + (n - 10))

/-- Four-digit hexadecimal rendering for `\uXXXX` escapes. -/
def hex4 (n : Nat) : List Char :=
  [hexDigitChar (n / 4096 % 16), hexDigitChar (n / 256 % 16),
   hexDigitChar (n / 16 % 16), hexDigitChar (n % 16)]

/-- Escaping of one character inside a JSON string literal, as
`JSON.stringify` performs it. -/
def jsonEscapeChar (c : Char) : List Char :=
  if c = '"' then ['\\', '"']
  else if c = '\\' then ['\\', '\\']
  else if c = '\n' then ['\\', 'n']
  else if c = '\r' then ['\\', 'r']
  else if c = '\t' then ['\\', 't']
  else if c.toNat = 8 then ['\\', 'b']
  else if c.toNat = 12 then ['\\', 'f']
  else if c.toNat < 32 then '\\' :: 'u' :: hex4 c.toNat
  else [c]

/-- Rendering of `JSON.stringify` applied to a string value. -/
def jsonStr (s : String) : String :=
  ⟨'"' :: (s.data.map jsonEscapeChar).flatten ++ ['"']⟩

/-- The not-found payload
`JSON.stringify({ error: "Not Found", path, method })`. -/
def notFoundBody (path method : String) : String :=
  "\x7b\"error\":\"Not Found\",\"path\":" ++ jsonStr path ++
    ",\"method\":" ++ jsonStr method ++ "\x7d"

/-- The message selection `error instanceof Error ? error.message : "Unknown error"`. -/
def errMessage : Thrown → String
  | .errObj m => m
  | .nonError => "Unknown error"

/-- The server-error payload
`JSON.stringify({ error: "Internal Server Error", message })`. -/
def serverErrorBody (t : Thrown) : String :=
  "\x7b\"error\":\"Internal Server Error\",\"message\":" ++
    jsonStr (errMessage t) ++ "\x7d"

/-- The `catch` block of `handleRequest`: if the response is still open,
finalize it with status 500 and the server-error payload; otherwise
swallow the error. -/
def catchBlock (t : Thrown) (s : St) : St :=
  if s.res.writableEnded then s
  else
    let r := Res.setHeader { s.res with statusCode := 500 } "Content-Type" "application/json"
    { s with res := r.endWith (some (serverErrorBody t)) }

/-- The `try`/`catch` portion of `handleRequest`: run the top-level
`next()`, then — unconditionally — the matched endpoint's handler, then
finalize from the handler's return value unless the response already
ended; any throw from the chain or the handler lands in `catchBlock`. -/
def runPipeline (allMiddlewares : List MwProg) (handler : HProg) (s0 : St) : St :=
  match nextFn allMiddlewares allMiddlewares.length s0 with
  | (s1, some t) => catchBlock t s1
  | (s1, none) =>
    match runHandler handler { s1 with handlerInvoked := true } with
    | (s2, .error t) => catchBlock t s2
    | (s2, .ok result) =>
      if s2.res.writableEnded then s2
      else
        match result with
        | some v =>
          { s2 with res := (s2.res.setHeader "Content-Type" "application/json").endWith (some v) }
        | none => { s2 with res := s2.res.endWith none }

/-- The opening-brace character. -/
def lcurly : Char := Char.ofNat 123

/-- The closing-brace character. -/
def rcurly : Char := Char.ofNat 125

/-- JSON insignificant whitespace. -/
def isJsonWs (c : Char) : Bool :=
  c = ' ' ∨ c = '\t' ∨ c = '\n' ∨ c = '\r'

/-- Skip insignificant whitespace. -/
def skipWs (cs : List Char) : List Char :=
  cs.dropWhile isJsonWs

/-- ASCII decimal digit test. -/
def isDigitCh (c : Char) : Bool :=
  '0' ≤ c ∧ c ≤ '9'

/-- Parse the body of a JSON string literal after the opening quote,
returning the remainder after the closing quote. -/
def pStringBody : List Char → Option (List Char)
  | [] => none
  | c :: rest =>
    if c = '"' then some rest
    else if c = '\\' then
      match rest with
      | [] => none
      | e :: rest' =>
        if e = 'u' then
          match rest' with
          | a :: b :: c₂ :: d :: rest'' =>
            if (hexDigitVal? a).isSome ∧ (hexDigitVal? b).isSome ∧
                (hexDigitVal? c₂).isSome ∧ (hexDigitVal? d).isSome then
              pStringBody rest''
            else none
          | _ => none
        else if e = '"' ∨ e = '\\' ∨ e = '/' ∨ e = 'b' ∨ e = 'f' ∨ e = 'n' ∨
            e = 'r' ∨ e = 't' then
          pStringBody rest'
        else none
    else if c.toNat < 32 then none
    else pStringBody rest

/-- One or more digits, then the remainder. -/
def pDigits1 : List Char → Option (List Char)
  | c :: rest => if isDigitCh c then some (rest.dropWhile isDigitCh) else none
  | [] => none

/-- The integer part of a JSON number (no leading zeros). -/
def pIntPart : List Char → Option (List Char)
  | '0' :: rest => some rest
  | c :: rest => if isDigitCh c then some (rest.dropWhile isDigitCh) else none
  | [] => none

/-- The optional fraction part of a JSON number. -/
def pFracPart : List Char → Option (List Char)
  | '.' :: rest => pDigits1 rest
  | cs => some cs

/-- The optional exponent part of a JSON number. -/
def pExpPart : List Char → Option (List Char)
  | e :: rest =>
    if e = 'e' ∨ e = 'E' then
      match rest with
      | s :: rest' => if s = '+' ∨ s = '-' then pDigits1 rest' else pDigits1 rest
      | [] => none
    else some (e :: rest)
  | [] => some []

/-- A JSON number (sign, integer, fraction, exponent). -/
def pNumber (cs : List Char) : Option (List Char) :=
  let cs₁ := match cs with
    | '-' :: rest => rest
    | _ => cs
  match pIntPart cs₁ with
  | none => none
  | some cs₂ =>
    match pFracPart cs₂ with
    | none => none
    | some cs₃ => pExpPart cs₃

/-- Consume an expected literal tail (`rue`, `alse`, `ull`). -/
def eatLit : List Char → List Char → Option (List Char)
  | [], cs => some cs
  | l :: ls, c :: cs => if c = l then eatLit ls cs else none
  | _ :: _, [] => none

mutual

/-- Recognize one JSON value, fuel-bounded; models the grammar the JS
`JSON.parse` builtin accepts. -/
def pValue : Nat → List Char → Option (List Char)
  | 0, _ => none
  | fuel + 1, cs =>
    match skipWs cs with
    | [] => none
    | c :: rest =>
      if c = '"' then pStringBody rest
      else if c = lcurly then
        match skipWs rest with
        | c₂ :: r₂ => if c₂ = rcurly then some r₂ else pMembers fuel rest
        | [] => none
      else if c = '[' then
        match skipWs rest with
        | ']' :: r₂ => some r₂
        | _ => pElements fuel rest
      else if c = 't' then eatLit ['r', 'u', 'e'] rest
      else if c = 'f' then eatLit ['a', 'l', 's', 'e'] rest
      else if c = 'n' then eatLit ['u', 'l', 'l'] rest
      else if c = '-' ∨ isDigitCh c then pNumber (c :: rest)
      else none

/-- Recognize one or more `"key": value` members then the closing
brace. -/
def pMembers : Nat → List Char → Option (List Char)
  | 0, _ => none
  | fuel + 1, cs =>
    match skipWs cs with
    | '"' :: rest =>
      match pStringBody rest with
      | none => none
      | some afterKey =>
        match skipWs afterKey with
        | ':' :: afterColon =>
          match pValue fuel afterColon with
          | none => none
          | some afterVal =>
            match skipWs afterVal with
            | ',' :: afterComma => pMembers fuel afterComma
            | c₂ :: r₂ => if c₂ = rcurly then some r₂ else none
            | [] => none
        | _ => none
    | _ => none

/-- Recognize one or more array elements then the closing bracket. -/
def pElements : Nat → List Char → Option (List Char)
  | 0, _ => none
  | fuel + 1, cs =>
    match pValue fuel cs with
    | none => none
    | some afterVal =>
      match skipWs afterVal with
      | ',' :: afterComma => pElements fuel afterComma
      | ']' :: r₂ => some r₂
      | _ => none

end

/-- Does `JSON.parse` accept this text?  (The fuel bound exceeds any
possible recursion depth: every recursive step strictly consumes input.) -/
def jsonAccepts (s : String) : Bool :=
  match pValue (2 * s.data.length + 2) s.data with
  | some rest => skipWs rest = []
  | none => false

/-- The inbound body stream as `parseBody` observes it: either the
buffered chunks followed by the `end` event, or an `error` event. -/
inductive BodyIn where
  | chunksEnd (chunks : List String)
  | errored
  deriving Repr, DecidableEq

/-- Embedding of `parseBody` from `src/router.ts`: a stream error resolves to the
no-value sentinel; an empty buffer resolves to the sentinel; otherwise
`JSON.parse` is attempted and on failure the raw text is returned. -/
def parseBody : BodyIn → Option BodyVal
  | .errored => none
  | .chunksEnd chunks =>
    let body := String.join chunks
    if body = "" then none
    else if jsonAccepts body then some (.json body) else some (.raw body)

/-- The pathname of a request URL: everything before the query or
fragment (modelling `new URL(u, base).pathname` for the origin-relative
request targets an HTTP server receives). -/
def urlPath (u : String) : String :=
  ⟨u.data.takeWhile (fun c => ¬(c = '?' ∨ c = '#'))⟩

/-- The query of a request URL, without the leading `?` (modelling
`url.search.slice(1)`). -/
def urlQuery (u : String) : String :=
  match u.data.dropWhile (fun c => ¬(c = '?' ∨ c = '#')) with
  | '?' :: rest => ⟨rest.takeWhile (· ≠ '#')⟩
  | _ => ""

/-- JS `String.prototype.toUpperCase` (ASCII range). -/
def jsToUpper (s : String) : String :=
  ⟨s.data.map Char.toUpper⟩

/-- The inbound request as `handleRequest` observes it: the raw URL and
method from the request line (either may be absent) and the body
stream. -/
structure Request where
  url : Option String
  method : Option String
  body : BodyIn
  deriving Repr, DecidableEq

/-- The root server node: its top-level middleware list and its child
nodes. -/
structure ServerRoot where
  middlewares : List MwProg
  children : List ServerNode

/-- The observable outcome of one dispatch: the finalized response plus
the instrumentation recording which middlewares fired and whether the
terminal handler was invoked. -/
structure DispatchOut where
  res : Res
  firedMws : List Nat
  handlerInvoked : Bool
  deriving Repr, DecidableEq

/-- Embedding of `handleRequest` from `src/router.ts`: parse path, method (uppercased,
defaulting to `GET`) and query; resolve the route seeded with the
server-level middleware; on a miss finalize a 404 immediately; otherwise
decode the body, build the context, and drive the middleware chain and
handler. -/
def handleRequest (serverNode : ServerRoot) (req : Request) : DispatchOut :=
  let path := urlPath (req.url.getD "/")
  let method := jsToUpper (req.method.getD "GET")
  let query := parseQueryString (urlQuery (req.url.getD "/"))
  let serverMiddlewares := serverNode.middlewares
  match findRoute serverNode.children method path "" serverMiddlewares with
  | none =>
    let r := Res.setHeader { Res.initial with statusCode := 404 } "Content-Type" "application/json"
    { res := r.endWith (some (notFoundBody path method)),
      firedMws := [], handlerInvoked := false }
  | some matched =>
    let body := parseBody req.body
    let ctx : RequestContext :=
      { params := matched.params, query := query, path := path, method := method,
        body := body }
    let s := runPipeline matched.middlewares matched.node.handler
      { ctx := ctx, res := Res.initial, index := 0, firedMws := [],
        handlerInvoked := false }
    { res := s.res, firedMws := s.firedMws, handlerInvoked := s.handlerInvoked }

/-- An auth-guard middleware in the spirit of the repository's own
examples: finalize a 401 response and never invoke the continuation. -/
def authGuardMw : MwProg :=
  .act (.setStatus 401) (.act (.setHeader "Content-Type" "application/json")
    (.act (.endRes (some "\x7b\"error\":\"Unauthorized\"\x7d")) .done))

/-- A pass-through middleware placed after the auth guard; the
short-circuit must keep it from firing. -/
def afterAuthMw : MwProg := .callNext .done

/-- The protected endpoint's handler. -/
def secretHandler : HProg := .ret (some "\x7b\"secret\":\"data\"\x7d")

/-- A server with a `/protected` group guarded by `authGuardMw` and
`afterAuthMw`. -/
def protectedTree : ServerRoot :=
  ⟨[], [.route "/protected" [.methodN ⟨"GET", none, secretHandler⟩]
    [authGuardMw, afterAuthMw]]⟩

/-- An unauthenticated GET request to `/protected`. -/
def protectedReq : Request := ⟨some "/protected", some "GET", .chunksEnd []⟩

/-- A chain of singly-nested route groups with the given prefixes,
ending in the given node; every group carries no middleware of its
own. -/
def nestGroups : List String → ServerNode → ServerNode
  | [], node => node
  | p :: ps, node => ServerNode.route p [nestGroups ps node] []

/-- The initial chain-execution state `handleRequest` builds for a
matched route: the freshly assembled request context, a fresh response,
cursor zero, and empty instrumentation. -/
def pipelineInit (matched : MatchedRoute) (req : Request) : St :=
  { ctx :=
      { params := matched.params,
        query := parseQueryString (urlQuery (req.url.getD "/")),
        path := urlPath (req.url.getD "/"),
        method := jsToUpper (req.method.getD "GET"),
        body := parseBody req.body },
    res := Res.initial, index := 0, firedMws := [], handlerInvoked := false }

/-- A direct endpoint of the `/api` group with suffix `/health`. -/
def directMn : MethodNode := ⟨"GET", some "/health", .ret (some "\"direct\"")⟩

/-- Children of a demo `/api` group: a nested `/health` group declared
first, then a direct endpoint with suffix `/health`; both match
`/api/health`. -/
def apiChildren : List ServerNode :=
  [ServerNode.route "/health"
    [ServerNode.methodN ⟨"GET", none, .ret (some "\"nested\"")⟩] [],
   ServerNode.methodN directMn]

/-- Children of a demo server with one uppercase-bound GET endpoint at
`/h`. -/
def demoCaseChildren : List ServerNode :=
  [ServerNode.route "/h" [ServerNode.methodN ⟨"GET", none, .ret (some "\"ok\"")⟩] []]

/-- A demo server with one uppercase-bound GET endpoint at `/h`. -/
def demoCaseTree : ServerRoot := ⟨[], demoCaseChildren⟩

/-- A concrete initial pipeline state for a request to `/x`. -/
def pipelineSt0 : St :=
  ⟨⟨[], [], "/x", "GET", none⟩, Res.initial, 0, [], false⟩

/-- Data of an append: `(s ++ t).data = s.data ++ t.data`. -/
theorem dataAppend (s t : String) : (s ++ t).data = s.data ++ t.data := by
  cases s; cases t; rfl

/-- Splitting a list free of the separator yields the single piece. -/
theorem splitOnChar_of_not_mem {c : Char} : ∀ {l : List Char}, c ∉ l → splitOnChar c l = [l]
  | [], _ => rfl
  | a :: t, h => by
    have ha : ¬a = c := fun e => h (e ▸ List.mem_cons_self a t)
    have ht : c ∉ t := fun m => h (List.mem_cons_of_mem a m)
    simp only [splitOnChar, if_neg ha, splitOnChar_of_not_mem ht]

/-- Splitting past a separator-free prefix peels that prefix off. -/
theorem splitOnChar_append_sep {c : Char} :
    ∀ {k : List Char} (rest : List Char), c ∉ k →
      splitOnChar c (k ++ c :: rest) = k :: splitOnChar c rest
  | [], rest, _ => by simp [splitOnChar]
  | a :: k', rest, h => by
    have ha : ¬a = c := fun e => h (e ▸ List.mem_cons_self a k')
    have ht : c ∉ k' := fun m => h (List.mem_cons_of_mem a m)
    simp only [List.cons_append, splitOnChar, if_neg ha, List.append_eq,
      splitOnChar_append_sep rest ht]

/-- The parameter record built by a successful `matchSegs` run is the
fold of the `:`-segment bindings, in order, over the zipped segment
lists. -/
theorem matchSegs_params :
    ∀ (ps qs : List String) (params : List (String × String)),
      (matchSegs ps qs params).matched = true →
      (matchSegs ps qs params).params =
        (ps.zip qs).foldl
          (fun acc pq =>
            if startsWithColon pq.1 then recInsert acc (sliceFrom1 pq.1) pq.2 else acc)
          params
  | [], [], params, _ => rfl
  | [], _ :: _, _, h => by simp [matchSegs] at h
  | _ :: _, [], _, h => by simp [matchSegs] at h
  | p :: ps, q :: qs, params, h => by
    by_cases hc : startsWithColon p
    · have h' : (matchSegs ps qs (recInsert params (sliceFrom1 p) q)).matched = true := by
        simpa [matchSegs, hc] using h
      simpa [matchSegs, hc] using matchSegs_params ps qs _ h'
    · by_cases he : p = q
      · subst he
        have h' : (matchSegs ps qs params).matched = true := by
          simpa [matchSegs, hc] using h
        simpa [matchSegs, hc] using matchSegs_params ps qs params h'
      · simp [matchSegs, hc, he] at h

/-- The loop `matchSegs` succeeds on equal-length lists exactly when every
non-parameter pattern segment equals the path segment at its
position. -/
theorem matchSegs_matched_iff :
    ∀ (ps qs : List String) (params : List (String × String)),
      ps.length = qs.length →
      ((matchSegs ps qs params).matched = true ↔
        ∀ pq ∈ ps.zip qs, startsWithColon pq.1 = true ∨ pq.1 = pq.2)
  | [], [], params, _ => by simp [matchSegs]
  | [], _ :: _, _, h => by simp at h
  | _ :: _, [], _, h => by simp at h
  | p :: ps, q :: qs, params, h => by
    have hlen : ps.length = qs.length := by simpa using h
    by_cases hc : startsWithColon p
    · simp [matchSegs, hc, matchSegs_matched_iff ps qs _ hlen]
    · by_cases he : p = q
      · subst he
        simp [matchSegs, hc, matchSegs_matched_iff ps qs params hlen]
      · simp [matchSegs, hc, he]

/-- C6: `matchPath` splits pattern and path on `/` discarding empty
segments and matches exactly when the segment sequences have equal
length and every pattern segment not beginning with `:` equals the path
segment at the same position; each `:`-segment binds its name (sigil
stripped) to the path segment's value, later bindings overwriting
earlier ones for a repeated name.  In particular
`match("/users/:id", "/users/42")` matches with `{id: "42"}` and
`match("/users/:id", "/users")` does not match. -/
theorem matchPath_spec (pattern path : String) :
    ((matchPath pattern path).matched = true ↔
      ((splitSegs pattern).length = (splitSegs path).length ∧
        ∀ pq ∈ (splitSegs pattern).zip (splitSegs path),
          startsWithColon pq.1 = true ∨ pq.1 = pq.2)) ∧
    ((matchPath pattern path).matched = true →
      (matchPath pattern path).params =
        ((splitSegs pattern).zip (splitSegs path)).foldl
          (fun acc pq =>
            if startsWithColon pq.1 then recInsert acc (sliceFrom1 pq.1) pq.2 else acc)
          []) ∧
    matchPath "/users/:id" "/users/42" = ⟨true, [("id", "42")]⟩ ∧
    (matchPath "/users/:id" "/users").matched = false := by
  refine ⟨?_, ?_, by decide, by decide⟩
  · by_cases hlen : (splitSegs pattern).length = (splitSegs path).length
    · simpa [matchPath, hlen] using matchSegs_matched_iff _ _ [] hlen
    · simp [matchPath, hlen]
  · intro h
    by_cases hlen : (splitSegs pattern).length = (splitSegs path).length
    · have h' : (matchSegs (splitSegs pattern) (splitSegs path) []).matched = true := by
        simpa [matchPath, hlen] using h
      simpa [matchPath, hlen] using matchSegs_params _ _ [] h'
    · simp [matchPath, hlen] at h

/-- Witness for `matchPath_spec` at `"/users/:id"`, `"/users/42"`. -/
theorem matchPath_spec_witness :
    (matchPath "/users/:id" "/users/42").params = [("id", "42")] ∧
    (splitSegs "/users/:id").length = (splitSegs "/users/42").length :=
  ⟨by rw [(matchPath_spec "/users/:id" "/users/42").2.1 (by decide)]; decide, by decide⟩

/-- C7: query parsing splits on `&`; a pair with a key but no `=` binds
the key to `""`; only the piece between the first and the second `=`
survives as the value, the rest is dropped; keys and values are
percent-decoded; `"flag"` parses to `{flag: ""}` and
`"foo=bar&baz=qux"` to `{foo: "bar", baz: "qux"}`. -/
theorem parseQueryString_spec :
    parseQueryString "flag" = [("flag", "")] ∧
    parseQueryString "foo=bar&baz=qux" = [("foo", "bar"), ("baz", "qux")] ∧
    parseQueryString "name=hello%20world" = [("name", "hello world")] ∧
    (∀ k : List Char, k ≠ [] → '&' ∉ k → '=' ∉ k →
      parseQueryString ⟨k⟩ = [(decodeURIComponent ⟨k⟩, "")]) ∧
    (∀ k v j : List Char, k ≠ [] → '&' ∉ k → '=' ∉ k → v ≠ [] → '&' ∉ v → '=' ∉ v →
      '&' ∉ j →
      parseQueryString ⟨k ++ '=' :: (v ++ '=' :: j)⟩ =
        [(decodeURIComponent ⟨k⟩, decodeURIComponent ⟨v⟩)]) := by
  refine ⟨by decide, by decide, by decide, ?_, ?_⟩
  · intro k hk hAmp hEq
    have hqs : (⟨k⟩ : String) ≠ "" := fun h => hk (by simpa using congrArg String.data h)
    simp only [parseQueryString, if_neg hqs]
    rw [splitOnChar_of_not_mem hAmp]
    simp only [List.foldl_cons, List.foldl_nil]
    rw [splitOnChar_of_not_mem hEq]
    simp [hk, recInsert]
  · intro k v j hk hAmpK hEqK hv hAmpV hEqV hAmpJ
    have hAmpAll : '&' ∉ k ++ '=' :: (v ++ '=' :: j) := by
      simp [List.mem_append, List.mem_cons, hAmpK, hAmpV, hAmpJ,
        show ('&' : Char) ≠ '=' from by decide]
    have hne : k ++ '=' :: (v ++ '=' :: j) ≠ [] := by simp
    have hqs : (⟨k ++ '=' :: (v ++ '=' :: j)⟩ : String) ≠ "" :=
      fun h => hne (by simpa using congrArg String.data h)
    simp only [parseQueryString, if_neg hqs]
    rw [splitOnChar_of_not_mem hAmpAll]
    simp only [List.foldl_cons, List.foldl_nil]
    rw [splitOnChar_append_sep _ hEqK, splitOnChar_append_sep _ hEqV]
    simp [hk, hv, recInsert]

/-- Witness for `parseQueryString_spec` at concrete inputs. -/
theorem parseQueryString_spec_witness :
    parseQueryString "tok" = [("tok", "")] ∧
    parseQueryString "a=b=c=d" = [("a", "b")] := by
  constructor
  · have h := parseQueryString_spec.2.2.2.1 ['t', 'o', 'k'] (by decide) (by decide) (by decide)
    exact h.trans (by decide)
  · have h := parseQueryString_spec.2.2.2.2 ['a'] ['b'] ['c', '=', 'd'] (by decide)
      (by decide) (by decide) (by decide) (by decide) (by decide) (by decide)
    exact h.trans (by decide)

/-- C8: body decoding never throws: an empty buffered body decodes to
the no-value sentinel, a non-empty body is attempted as JSON and on
decode failure the raw text is returned as-is, a stream error also
yields the sentinel; `"hello world"` decodes to itself. -/
theorem parseBody_spec :
    (∀ chunks : List String, String.join chunks = "" →
      parseBody (.chunksEnd chunks) = none) ∧
    (∀ chunks : List String, String.join chunks ≠ "" →
      jsonAccepts (String.join chunks) = false →
      parseBody (.chunksEnd chunks) = some (.raw (String.join chunks))) ∧
    (∀ chunks : List String, String.join chunks ≠ "" →
      jsonAccepts (String.join chunks) = true →
      parseBody (.chunksEnd chunks) = some (.json (String.join chunks))) ∧
    parseBody .errored = none ∧
    parseBody (.chunksEnd ["hello world"]) = some (.raw "hello world") ∧
    parseBody (.chunksEnd []) = none := by
  refine ⟨?_, ?_, ?_, rfl, by decide, by decide⟩
  · intro chunks h; simp [parseBody, h]
  · intro chunks h hj; simp [parseBody, h, hj]
  · intro chunks h hj; simp [parseBody, h, hj]

/-- Witness for `parseBody_spec` at a concrete split body. -/
theorem parseBody_spec_witness :
    parseBody (.chunksEnd ["hello", " world"]) = some (.raw "hello world") := by
  have h := parseBody_spec.2.1 ["hello", " world"] (by decide) (by decide)
  exact h.trans (by decide)

/-- After dropping the leading slashes the head is not a slash. -/
theorem head?_dropWhileSlash (l : List Char) :
    (l.dropWhile (· = '/')).head? ≠ some '/' := by
  induction l with
  | nil => simp
  | cons a t ih =>
    by_cases ha : a = '/'
    · simpa [List.dropWhile_cons, ha] using ih
    · simp [List.dropWhile_cons, ha]

/-- Dropping a prefix keeps the last element when something is left. -/
theorem getLast?_dropWhile_of_ne_nil (p : Char → Bool) :
    ∀ l : List Char, l.dropWhile p ≠ [] → (l.dropWhile p).getLast? = l.getLast?
  | [], h => by simp at h
  | a :: t, h => by
    by_cases ha : p a
    · have ht : t.dropWhile p ≠ [] := by
        simpa [List.dropWhile_cons, ha] using h
      have htne : t ≠ [] := by
        intro e; rw [e] at ht; simp at ht
      obtain ⟨b, t', rfl⟩ := List.exists_cons_of_ne_nil htne
      rw [List.dropWhile_cons, if_pos ha, getLast?_dropWhile_of_ne_nil p (b :: t')
        (by simpa [List.dropWhile_cons, ha] using h), List.getLast?_cons_cons]
    · simp [List.dropWhile_cons, ha]

/-- A list whose head is not a slash is unchanged by the leading
trim. -/
theorem dropWhileSlash_eq_self {l : List Char} (h : l.head? ≠ some '/') :
    l.dropWhile (· = '/') = l := by
  cases l with
  | nil => rfl
  | cons a t =>
    have ha : ¬a = '/' := fun e => h (by simp [e])
    simp [List.dropWhile_cons, ha]

/-- The trimmed list never starts with a slash. -/
theorem trimSlashesL_head (l : List Char) : (trimSlashesL l).head? ≠ some '/' := by
  unfold trimSlashesL
  rw [List.head?_reverse]
  by_cases h : (l.dropWhile (· = '/')).reverse.dropWhile (· = '/') = []
  · rw [h]; simp
  · rw [getLast?_dropWhile_of_ne_nil _ _ h, List.getLast?_reverse]
    exact head?_dropWhileSlash l

/-- The trimmed list never ends with a slash. -/
theorem trimSlashesL_getLast (l : List Char) :
    (trimSlashesL l).getLast? ≠ some '/' := by
  unfold trimSlashesL
  rw [List.getLast?_reverse]
  exact head?_dropWhileSlash _

/-- Unfolding of `interSlash` on a cons with nonempty tail. -/
theorem interSlash_cons (p : List Char) {ps : List (List Char)} (h : ps ≠ []) :
    interSlash (p :: ps) = p ++ '/' :: interSlash ps := by
  cases ps with
  | nil => exact absurd rfl h
  | cons q qs => rfl

/-- Joining nonempty pieces yields a nonempty list. -/
theorem interSlash_ne_nil :
    ∀ {ps : List (List Char)}, ps ≠ [] → (∀ x ∈ ps, x ≠ []) → interSlash ps ≠ []
  | [], h, _ => absurd rfl h
  | [p], _, hm => by simpa [interSlash] using hm p (by simp)
  | p :: q :: qs, _, hm => by
    rw [interSlash_cons p (by simp)]
    intro e
    have := List.append_eq_nil.mp e
    exact absurd this.2 (by simp)

/-- The join of clean pieces does not start with a slash. -/
theorem interSlash_head :
    ∀ {ps : List (List Char)},
      (∀ x ∈ ps, x ≠ [] ∧ x.head? ≠ some '/') → (interSlash ps).head? ≠ some '/'
  | [], _ => by simp [interSlash]
  | [p], hm => by simpa [interSlash] using (hm p (by simp)).2
  | p :: q :: qs, hm => by
    rw [interSlash_cons p (by simp)]
    obtain ⟨hpne, hph⟩ := hm p (by simp)
    obtain ⟨a, t, rfl⟩ := List.exists_cons_of_ne_nil hpne
    simpa using hph

/-- The join of clean pieces does not end with a slash. -/
theorem interSlash_getLast :
    ∀ {ps : List (List Char)},
      (∀ x ∈ ps, x ≠ [] ∧ x.getLast? ≠ some '/') →
      (interSlash ps).getLast? ≠ some '/'
  | [], _ => by simp [interSlash]
  | [p], hm => by simpa [interSlash] using (hm p (by simp)).2
  | p :: q :: qs, hm => by
    rw [interSlash_cons p (by simp)]
    have htail := @interSlash_getLast (q :: qs) fun x hx => hm x (by simp [hx])
    have hne : interSlash (q :: qs) ≠ [] :=
      interSlash_ne_nil (by simp) fun x hx => (hm x (by simp [hx])).1
    rw [List.getLast?_append_of_ne_nil _ (by simp)]
    obtain ⟨b, t, he⟩ := List.exists_cons_of_ne_nil hne
    rw [he, List.getLast?_cons_cons, ← he]
    exact htail

/-- Every piece kept by `joinParts` is nonempty with clean ends. -/
theorem joinParts_mem {x : List Char} {ps : List (List Char)} (h : x ∈ joinParts ps) :
    x ≠ [] ∧ x.head? ≠ some '/' ∧ x.getLast? ≠ some '/' := by
  unfold joinParts at h
  obtain ⟨hmem, hne⟩ := List.mem_filter.mp h
  obtain ⟨y, _, rfl⟩ := List.mem_map.mp hmem
  exact ⟨by simpa using hne, trimSlashesL_head y, trimSlashesL_getLast y⟩

/-- Trimming the rendered join `'/' :: X` recovers `X` when `X` has
clean ends. -/
theorem trim_slash_cons {X : List Char} (h1 : X.head? ≠ some '/')
    (h2 : X.getLast? ≠ some '/') : trimSlashesL ('/' :: X) = X := by
  have hd : ('/' :: X).dropWhile (· = '/') = X.dropWhile (· = '/') := by
    simp [List.dropWhile_cons]
  unfold trimSlashesL
  rw [hd, dropWhileSlash_eq_self h1,
    dropWhileSlash_eq_self (by rw [List.head?_reverse]; exact h2), List.reverse_reverse]

/-- The join `interSlash` distributes over the append of nonempty lists. -/
theorem interSlash_append :
    ∀ {a : List (List Char)} (b : List (List Char)), a ≠ [] → b ≠ [] →
      interSlash (a ++ b) = interSlash a ++ '/' :: interSlash b
  | [], _, h, _ => absurd rfl h
  | [p], b, _, hb => by
    rw [List.singleton_append, interSlash_cons p hb]; rfl
  | p :: q :: qs, b, _, hb => by
    have h1 : (q :: qs) ++ b ≠ [] := by simp
    rw [List.cons_append, interSlash_cons p h1,
      @interSlash_append (q :: qs) b (by simp) hb,
      interSlash_cons p (by simp : (q : List Char) :: qs ≠ [])]
    simp

/-- The piece selection `joinParts` distributes over append. -/
theorem joinParts_append (a b : List (List Char)) :
    joinParts (a ++ b) = joinParts a ++ joinParts b := by
  simp [joinParts]

/-- The piece selection `joinParts` on a single path. -/
theorem joinParts_single (a : List Char) :
    joinParts [a] = if trimSlashesL a = [] then [] else [trimSlashesL a] := by
  unfold joinParts
  by_cases h : trimSlashesL a = [] <;> simp [h]

/-- The incremental two-argument join the router performs coincides with
the flat variadic join: `joinPaths(joinPaths(ps...), q)` equals
`joinPaths(ps..., q)`. -/
theorem joinPaths_snoc (ps : List String) (q : String) :
    joinPaths (ps ++ [q]) = joinPaths [joinPaths ps, q] := by
  have hXh : (interSlash (joinParts (ps.map String.data))).head? ≠ some '/' :=
    interSlash_head fun x hx => ⟨(joinParts_mem hx).1, (joinParts_mem hx).2.1⟩
  have hXl : (interSlash (joinParts (ps.map String.data))).getLast? ≠ some '/' :=
    interSlash_getLast fun x hx => ⟨(joinParts_mem hx).1, (joinParts_mem hx).2.2⟩
  have htrim : trimSlashesL ('/' :: interSlash (joinParts (ps.map String.data))) =
      interSlash (joinParts (ps.map String.data)) := trim_slash_cons hXh hXl
  unfold joinPaths
  apply congrArg String.mk
  apply congrArg (fun X => '/' :: X)
  rw [List.map_append, joinParts_append]
  simp only [List.map_cons, List.map_nil]
  have h2 : joinParts [('/' :: interSlash (joinParts (List.map String.data ps)) : List Char),
      q.data] =
      (if interSlash (joinParts (List.map String.data ps)) = []
        then ([] : List (List Char))
        else [interSlash (joinParts (List.map String.data ps))]) ++ joinParts [q.data] := by
    have hsplit :
        [('/' :: interSlash (joinParts (List.map String.data ps)) : List Char), q.data] =
        [('/' :: interSlash (joinParts (List.map String.data ps)) : List Char)] ++ [q.data] :=
      rfl
    rw [hsplit, joinParts_append, joinParts_single, htrim]
  rw [h2]
  by_cases hJ : joinParts (List.map String.data ps) = []
  · rw [hJ]
    simp [interSlash]
  · have hJne : interSlash (joinParts (List.map String.data ps)) ≠ [] :=
      interSlash_ne_nil hJ fun x hx => (joinParts_mem hx).1
    rw [if_neg hJne]
    by_cases hq : trimSlashesL q.data = []
    · rw [joinParts_single, if_pos hq, List.append_nil, List.append_nil]
      rfl
    · rw [joinParts_single, if_neg hq,
        interSlash_append [trimSlashesL q.data] hJ (by simp),
        List.singleton_append,
        interSlash_cons (interSlash (joinParts (List.map String.data ps)))
          (by simp : ([trimSlashesL q.data] : List (List Char)) ≠ [])]

/-- Prepending an empty path piece does not change the join. -/
theorem joinPaths_cons_empty (ps : List String) :
    joinPaths ("" :: ps) = joinPaths ps := by
  simp [joinPaths, joinParts, trimSlashesL]

/-- Appending an empty path piece does not change the join. -/
theorem joinPaths_snoc_empty (ps : List String) :
    joinPaths (ps ++ [""]) = joinPaths ps := by
  simp [joinPaths, joinParts, trimSlashesL]

/-- The join `joinPaths` depends on its first argument only through its trim. -/
theorem joinPaths_congr_head {a b : String}
    (h : trimSlashesL a.data = trimSlashesL b.data) (t : List String) :
    joinPaths (a :: t) = joinPaths (b :: t) := by
  simp [joinPaths, joinParts, h]

/-- The matcher `matchPath` depends on the pattern only through its segments. -/
theorem matchPath_congr {a b : String} (h : splitSegs a = splitSegs b) (q : String) :
    matchPath a q = matchPath b q := by
  simp only [matchPath, h]

/-- The pattern a method node is tested against, as a match result, is
the flat join of the accumulated prefixes and its optional suffix. -/
theorem methodCheckPath_pattern (base : String) (acc : List String) (p? : Option String)
    (q : String)
    (htrim : trimSlashesL base.data = trimSlashesL (joinPaths acc).data)
    (hseg : splitSegs base = splitSegs (joinPaths acc)) :
    matchPath (methodCheckPath base p?) q = matchPath (joinPaths (acc ++ p?.toList)) q := by
  cases p? with
  | none =>
    simp only [methodCheckPath, Option.toList, List.append_nil]
    exact matchPath_congr hseg q
  | some p =>
    by_cases hp : p = ""
    · subst hp
      rw [show methodCheckPath base (some "") = base from by simp [methodCheckPath],
        show (Option.some "").toList = [""] from rfl, joinPaths_snoc_empty]
      exact matchPath_congr hseg q
    · rw [show methodCheckPath base (some p) = joinPaths [base, p] from by
        simp [methodCheckPath, hp],
        joinPaths_congr_head htrim [p], ← joinPaths_snoc]
      rfl

/-- The identity rematch on an optional matched route, the shape the
equation lemmas of `findRoute` leave behind. -/
theorem optMatchId (x : Option MatchedRoute) :
    (match x with | some r => some r | none => none) = x := by
  cases x <;> rfl

/-- Resolving a chain of singly-nested groups ending in a method node
tests the endpoint against the flat join of all prefixes and the
optional suffix; stated with the base path generalized up to trim and
segments so the induction goes through. -/
theorem findRoute_nestGroups :
    ∀ (prefixes : List String) (base : String) (acc : List String) (mn : MethodNode)
      (q : String) (mws : List MwProg),
      trimSlashesL base.data = trimSlashesL (joinPaths acc).data →
      splitSegs base = splitSegs (joinPaths acc) →
      (findRoute [nestGroups prefixes (ServerNode.methodN mn)] mn.method q base
          mws).isSome =
        (matchPath (joinPaths (acc ++ prefixes ++ mn.path.toList)) q).matched
  | [], base, acc, mn, q, mws, htrim, hseg => by
    have hpat := methodCheckPath_pattern base acc mn.path q htrim hseg
    simp only [nestGroups, findRoute, findRouteNode, if_pos rfl, List.append_nil]
    rw [hpat]
    cases hM : (matchPath (joinPaths (acc ++ mn.path.toList)) q).matched <;> simp [hM]
  | p :: ps, base, acc, mn, q, mws, htrim, hseg => by
    have hfull : joinPaths [base, p] = joinPaths (acc ++ [p]) := by
      rw [joinPaths_congr_head htrim [p], ← joinPaths_snoc]
    cases ps with
    | nil =>
      have hpat := methodCheckPath_pattern (joinPaths (acc ++ [p])) (acc ++ [p]) mn.path q
        rfl rfl
      simp only [nestGroups, findRoute, findRouteNode, checkMethods, if_pos rfl, hfull,
        List.append_nil]
      rw [hpat]
      cases hM : (matchPath (joinPaths (acc ++ [p] ++ mn.path.toList)) q).matched <;>
        simp [hM]
    | cons p₂ ps₂ =>
      have hih := findRoute_nestGroups (p₂ :: ps₂) (joinPaths (acc ++ [p])) (acc ++ [p])
        mn q mws rfl rfl
      simp only [nestGroups, findRoute, findRouteNode, checkMethods, hfull,
        List.append_nil, optMatchId] at hih ⊢
      have hassoc : (acc ++ [p]) ++ p₂ :: ps₂ = acc ++ p :: p₂ :: ps₂ := by simp
      rw [hassoc] at hih
      exact hih

/-- C9: the effective pattern an endpoint is matched against is the
flat `joinPaths` of every ancestor group prefix, root to leaf, followed
by the endpoint's optional suffix; and `joinPaths("/api/", "/users/")`
is `"/api/users"` while `joinPaths("", "")` is `"/"`. -/
theorem joinPaths_spec :
    joinPaths ["/api/", "/users/"] = "/api/users" ∧
    joinPaths ["", ""] = "/" ∧
    (∀ (ps : List String) (q : String),
      joinPaths (ps ++ [q]) = joinPaths [joinPaths ps, q]) ∧
    (∀ (prefixes : List String) (mn : MethodNode) (q : String) (mws : List MwProg),
      (findRoute [nestGroups prefixes (ServerNode.methodN mn)] mn.method q "" mws).isSome =
        (matchPath (joinPaths (prefixes ++ mn.path.toList)) q).matched) := by
  refine ⟨by decide, by decide, joinPaths_snoc, ?_⟩
  intro prefixes mn q mws
  have h := findRoute_nestGroups prefixes "" [] mn q mws (by decide) (by decide)
  simpa using h

/-- The not-found payload is never the empty string, so `end` writes
it. -/
theorem notFoundBody_ne_empty (p m : String) : notFoundBody p m ≠ "" := by
  intro h
  have hd := congrArg String.data h
  rw [notFoundBody, dataAppend, dataAppend, dataAppend, dataAppend,
    show ("\x7b\"error\":\"Not Found\",\"path\":" : String).data =
      '\x7b' :: ("\"error\":\"Not Found\",\"path\":" : String).data from rfl] at hd
  simp at hd

/-- The server-error payload is never the empty string, so `end` writes
it. -/
theorem serverErrorBody_ne_empty (t : Thrown) : serverErrorBody t ≠ "" := by
  intro h
  have hd := congrArg String.data h
  rw [serverErrorBody, dataAppend, dataAppend,
    show ("\x7b\"error\":\"Internal Server Error\",\"message\":" : String).data =
      '\x7b' :: ("\"error\":\"Internal Server Error\",\"message\":" : String).data
      from rfl] at hd
  simp at hd

/-- C2: when no endpoint matches the request's method and path, dispatch
finalizes the response with status 404 and the structured not-found body
carrying the error kind, the requested path, and the requested method;
no middleware of any kind — the root-level list included — fires, and
the terminal handler is never invoked. -/
theorem dispatch_not_found (srv : ServerRoot) (req : Request)
    (h : findRoute srv.children (jsToUpper (req.method.getD "GET"))
        (urlPath (req.url.getD "/")) "" srv.middlewares = none) :
    handleRequest srv req =
      ⟨⟨404, [("Content-Type", "application/json")],
        [notFoundBody (urlPath (req.url.getD "/")) (jsToUpper (req.method.getD "GET"))],
        true⟩, [], false⟩ := by
  simp only [handleRequest, h]
  simp [Res.endWith, Res.setHeader, Res.initial, recInsert,
    notFoundBody_ne_empty (urlPath (req.url.getD "/")) (jsToUpper (req.method.getD "GET"))]

/-- Witness for `dispatch_not_found`: a server with a root middleware
and no routes; the middleware does not fire on the 404 path. -/
theorem dispatch_not_found_witness :
    handleRequest ⟨[MwProg.callNext MwProg.done], []⟩
        ⟨some "/nope", some "GET", BodyIn.chunksEnd []⟩ =
      ⟨⟨404, [("Content-Type", "application/json")],
        ["\x7b\"error\":\"Not Found\",\"path\":\"/nope\",\"method\":\"GET\"\x7d"], true⟩,
        [], false⟩ := by
  have h := dispatch_not_found ⟨[MwProg.callNext MwProg.done], []⟩
    ⟨some "/nope", some "GET", BodyIn.chunksEnd []⟩ (by decide)
  exact h.trans (by decide)

/-- C3: an error escaping the middleware chain or the handler —
synchronous throws and asynchronous rejections coincide in this
sequential model of the cooperative scheduler — is caught at the
dispatcher boundary: if the response is still open it is finalized with
status 500 and body `{error: "Internal Server Error", message}`, where
the message is the error's own message for `Error` values and the
generic fallback otherwise; if the response was already finalized the
error is swallowed and the state is returned unchanged.  The first
conjunct anchors the matched-route dispatch path to `runPipeline`. -/
theorem dispatch_error_finalization :
    (∀ (srv : ServerRoot) (req : Request) (matched : MatchedRoute),
      findRoute srv.children (jsToUpper (req.method.getD "GET"))
          (urlPath (req.url.getD "/")) "" srv.middlewares = some matched →
      handleRequest srv req =
        { res := (runPipeline matched.middlewares matched.node.handler
              (pipelineInit matched req)).res,
          firedMws := (runPipeline matched.middlewares matched.node.handler
              (pipelineInit matched req)).firedMws,
          handlerInvoked := (runPipeline matched.middlewares matched.node.handler
              (pipelineInit matched req)).handlerInvoked }) ∧
    (∀ (mws : List MwProg) (handler : HProg) (s0 s1 : St) (t : Thrown),
      nextFn mws mws.length s0 = (s1, some t) →
      runPipeline mws handler s0 =
        if s1.res.writableEnded then s1
        else { s1 with res := (Res.setHeader { s1.res with statusCode := 500 }
            "Content-Type" "application/json").endWith (some (serverErrorBody t)) }) ∧
    (∀ (mws : List MwProg) (handler : HProg) (s0 s1 s2 : St) (t : Thrown),
      nextFn mws mws.length s0 = (s1, none) →
      runHandler handler { s1 with handlerInvoked := true } = (s2, Except.error t) →
      runPipeline mws handler s0 =
        if s2.res.writableEnded then s2
        else { s2 with res := (Res.setHeader { s2.res with statusCode := 500 }
            "Content-Type" "application/json").endWith (some (serverErrorBody t)) }) ∧
    (∀ msg, serverErrorBody (.errObj msg) =
      "\x7b\"error\":\"Internal Server Error\",\"message\":" ++ jsonStr msg ++ "\x7d") ∧
    serverErrorBody .nonError =
      "\x7b\"error\":\"Internal Server Error\",\"message\":\"Unknown error\"\x7d" := by
  refine ⟨?_, ?_, ?_, fun msg => rfl, by decide⟩
  · intro srv req matched h
    simp only [handleRequest, h, pipelineInit]
  · intro mws handler s0 s1 t h
    simp only [runPipeline, h, catchBlock]
  · intro mws handler s0 s1 s2 t h1 h2
    simp only [runPipeline, h1, h2, catchBlock]

/-- Witness for `dispatch_error_finalization`: a handler that throws
`Error("boom")` with the response still open yields the 500 payload
carrying `"boom"`. -/
theorem dispatch_error_finalization_witness :
    runPipeline [] (HProg.throwE (.errObj "boom")) pipelineSt0 =
      { pipelineSt0 with
        handlerInvoked := true,
        res := ⟨500, [("Content-Type", "application/json")],
          ["\x7b\"error\":\"Internal Server Error\",\"message\":\"boom\"\x7d"], true⟩ } := by
  have h := dispatch_error_finalization.2.2.1 [] (HProg.throwE (.errObj "boom"))
    pipelineSt0 pipelineSt0 { pipelineSt0 with handlerInvoked := true } (.errObj "boom")
    rfl rfl
  exact h.trans (by decide)

/-- C4: resolution walks siblings in declaration order; within a route
group every direct method child is tested — against the group's
accumulated prefix plus the endpoint's optional suffix, the test
`checkMethods` performs — before any nested group is entered, so a
matching direct endpoint is returned in preference to any match
reachable through the group's nested groups. -/
theorem findRoute_direct_before_nested :
    (∀ (n : ServerNode) (rest : List ServerNode) (m q b : String) (mws : List MwProg),
      findRoute (n :: rest) m q b mws =
        match findRouteNode n m q b mws with
        | some r => some r
        | none => findRoute rest m q b mws) ∧
    (∀ (gp : String) (children : List ServerNode) (gmws : List MwProg)
      (rest : List ServerNode) (m q b : String) (mws : List MwProg) (r : MatchedRoute),
      checkMethods children m (joinPaths [b, gp]) q (mws ++ gmws) = some r →
      findRoute (ServerNode.route gp children gmws :: rest) m q b mws = some r) ∧
    (∀ (gp : String) (children : List ServerNode) (gmws : List MwProg)
      (rest : List ServerNode) (m q b : String) (mws : List MwProg),
      checkMethods children m (joinPaths [b, gp]) q (mws ++ gmws) = none →
      findRoute (ServerNode.route gp children gmws :: rest) m q b mws =
        match findRoute children m q (joinPaths [b, gp]) (mws ++ gmws) with
        | some r => some r
        | none => findRoute rest m q b mws) := by
  refine ⟨fun n rest m q b mws => rfl, ?_, ?_⟩
  · intro gp children gmws rest m q b mws r h
    simp only [findRoute, findRouteNode, h]
  · intro gp children gmws rest m q b mws h
    simp only [findRoute, findRouteNode, h]

/-- Witness for `findRoute_direct_before_nested`: the direct `/health`
endpoint of `/api` wins over the nested `/health` group even though the
nested group is declared first. -/
theorem findRoute_direct_before_nested_witness :
    findRoute [ServerNode.route "/api" apiChildren []] "GET" "/api/health" "" [] =
      some ⟨directMn, [], []⟩ :=
  findRoute_direct_before_nested.2.1 "/api" apiChildren [] [] "GET" "/api/health" "" []
    ⟨directMn, [], []⟩ (by decide)

/-- A direct-child match carries exactly the accumulated middleware
list it was given. -/
theorem checkMethods_middlewares :
    ∀ (children : List ServerNode) (m f q : String) (acc : List MwProg)
      (r : MatchedRoute),
      checkMethods children m f q acc = some r → r.middlewares = acc
  | [], _, _, _, _, _, h => by simp [checkMethods] at h
  | ServerNode.methodN mn :: rest, m, f, q, acc, r, h => by
    by_cases hm : mn.method = m
    · by_cases hmt : (matchPath (methodCheckPath f mn.path) q).matched
      · simp only [checkMethods, if_pos hm, if_pos hmt] at h
        have := Option.some.inj h
        subst this
        rfl
      · simp only [checkMethods, if_pos hm, if_neg hmt] at h
        exact checkMethods_middlewares rest m f q acc r h
    · simp only [checkMethods, if_neg hm] at h
      exact checkMethods_middlewares rest m f q acc r h
  | ServerNode.route p ch mws :: rest, m, f, q, acc, r, h => by
    simp only [checkMethods] at h
    exact checkMethods_middlewares rest m f q acc r h
  | ServerNode.other :: rest, m, f, q, acc, r, h => by
    simp only [checkMethods] at h
    exact checkMethods_middlewares rest m f q acc r h

mutual

/-- Any route resolved through a single node extends the incoming
accumulated middleware list on the right. -/
theorem findRouteNode_mws_monotone :
    ∀ (n : ServerNode) (m q b : String) (mws : List MwProg) (r : MatchedRoute),
      findRouteNode n m q b mws = some r → ∃ t, r.middlewares = mws ++ t
  | ServerNode.route p children gmws, m, q, b, mws, r, h => by
    simp only [findRouteNode] at h
    cases hc : checkMethods children m (joinPaths [b, p]) q (mws ++ gmws) with
    | some r₀ =>
      rw [hc] at h
      have := Option.some.inj h
      subst this
      exact ⟨gmws, checkMethods_middlewares _ _ _ _ _ _ hc⟩
    | none =>
      rw [hc] at h
      obtain ⟨t, ht⟩ := findRoute_mws_monotone children m q (joinPaths [b, p])
        (mws ++ gmws) r h
      exact ⟨gmws ++ t, by rw [ht, List.append_assoc]⟩
  | ServerNode.methodN mn, m, q, b, mws, r, h => by
    by_cases hm : mn.method = m
    · by_cases hmt : (matchPath (methodCheckPath b mn.path) q).matched
      · simp only [findRouteNode, if_pos hm, if_pos hmt] at h
        have := Option.some.inj h
        subst this
        exact ⟨[], by simp⟩
      · simp only [findRouteNode, if_pos hm, if_neg hmt] at h
        exact Option.noConfusion h
    · simp only [findRouteNode, if_neg hm] at h
      exact Option.noConfusion h
  | ServerNode.other, m, q, b, mws, r, h => by
    simp only [findRouteNode] at h
    exact Option.noConfusion h

/-- Any resolved route extends the incoming accumulated middleware list
on the right. -/
theorem findRoute_mws_monotone :
    ∀ (nodes : List ServerNode) (m q b : String) (mws : List MwProg)
      (r : MatchedRoute),
      findRoute nodes m q b mws = some r → ∃ t, r.middlewares = mws ++ t
  | [], _, _, _, _, _, h => by simp [findRoute] at h
  | node :: rest, m, q, b, mws, r, h => by
    simp only [findRoute] at h
    cases hn : findRouteNode node m q b mws with
    | some r₀ =>
      rw [hn] at h
      have := Option.some.inj h
      subst this
      exact findRouteNode_mws_monotone node m q b mws r₀ hn
    | none =>
      rw [hn] at h
      exact findRoute_mws_monotone rest m q b mws r h

end

/-- C5: resolution appends each group's middleware after its parent's
accumulated middleware: the incoming accumulated list is always a
prefix of the returned list, and an endpoint nested in an outer and an
inner group receives `incoming ++ outer ++ inner`, outer before
inner. -/
theorem findRoute_middleware_scope :
    (∀ (nodes : List ServerNode) (m q b : String) (mws : List MwProg)
      (r : MatchedRoute),
      findRoute nodes m q b mws = some r → ∃ t, r.middlewares = mws ++ t) ∧
    (∀ (op : String) (omws : List MwProg) (ip : String) (imws : List MwProg)
      (mn : MethodNode) (m q : String) (mws : List MwProg) (r : MatchedRoute),
      findRoute
          [ServerNode.route op [ServerNode.route ip [ServerNode.methodN mn] imws] omws]
          m q "" mws = some r →
      r.middlewares = mws ++ omws ++ imws) := by
  refine ⟨findRoute_mws_monotone, ?_⟩
  intro op omws ip imws mn m q mws r h
  by_cases hm : mn.method = m
  · cases hmt :
        (matchPath (methodCheckPath (joinPaths [joinPaths ["", op], ip]) mn.path)
          q).matched with
    | true =>
      simp only [findRoute, findRouteNode, checkMethods, hm, hmt, if_pos, if_true,
        eq_self_iff_true] at h
      have := Option.some.inj h
      subst this
      rfl
    | false =>
      simp only [findRoute, findRouteNode, checkMethods, hm, hmt, Bool.false_eq_true,
        if_false, eq_self_iff_true, if_true] at h
      exact Option.noConfusion h
  · simp only [findRoute, findRouteNode, checkMethods, hm, if_false] at h
    exact Option.noConfusion h

/-- Witness for `findRoute_middleware_scope`: a concrete two-level
nesting accumulates server, outer, and inner middleware in order. -/
theorem findRoute_middleware_scope_witness :
    ∃ r : MatchedRoute,
      findRoute
          [ServerNode.route "/a"
            [ServerNode.route "/b" [ServerNode.methodN ⟨"GET", none, .ret none⟩]
              [MwProg.callNext MwProg.done]]
            [MwProg.done]]
          "GET" "/a/b" "" [MwProg.throwE .nonError] = some r ∧
      r.middlewares =
        [MwProg.throwE .nonError] ++ [MwProg.done] ++ [MwProg.callNext MwProg.done] := by
  refine ⟨⟨⟨"GET", none, .ret none⟩, [], [MwProg.throwE .nonError, MwProg.done,
    MwProg.callNext MwProg.done]⟩, by decide, ?_⟩
  exact findRoute_middleware_scope.2 "/a" [MwProg.done] "/b"
    [MwProg.callNext MwProg.done] ⟨"GET", none, .ret none⟩ "GET" "/a/b"
    [MwProg.throwE .nonError] _ (by decide)

/-- A direct-child match binds exactly the queried method. -/
theorem checkMethods_method :
    ∀ (children : List ServerNode) (m f q : String) (acc : List MwProg)
      (r : MatchedRoute),
      checkMethods children m f q acc = some r → r.node.method = m
  | [], _, _, _, _, _, h => by simp [checkMethods] at h
  | ServerNode.methodN mn :: rest, m, f, q, acc, r, h => by
    by_cases hm : mn.method = m
    · by_cases hmt : (matchPath (methodCheckPath f mn.path) q).matched
      · simp only [checkMethods, if_pos hm, if_pos hmt] at h
        have := Option.some.inj h
        subst this
        exact hm
      · simp only [checkMethods, if_pos hm, if_neg hmt] at h
        exact checkMethods_method rest m f q acc r h
    · simp only [checkMethods, if_neg hm] at h
      exact checkMethods_method rest m f q acc r h
  | ServerNode.route p ch mws :: rest, m, f, q, acc, r, h => by
    simp only [checkMethods] at h
    exact checkMethods_method rest m f q acc r h
  | ServerNode.other :: rest, m, f, q, acc, r, h => by
    simp only [checkMethods] at h
    exact checkMethods_method rest m f q acc r h

mutual

/-- A route resolved through a single node binds exactly the queried
method: the resolver compares methods with strict equality. -/
theorem findRouteNode_method_exact :
    ∀ (n : ServerNode) (m q b : String) (mws : List MwProg) (r : MatchedRoute),
      findRouteNode n m q b mws = some r → r.node.method = m
  | ServerNode.route p children gmws, m, q, b, mws, r, h => by
    simp only [findRouteNode] at h
    cases hc : checkMethods children m (joinPaths [b, p]) q (mws ++ gmws) with
    | some r₀ =>
      rw [hc] at h
      have := Option.some.inj h
      subst this
      exact checkMethods_method _ _ _ _ _ _ hc
    | none =>
      rw [hc] at h
      exact findRoute_method_exact children m q (joinPaths [b, p]) (mws ++ gmws) r h
  | ServerNode.methodN mn, m, q, b, mws, r, h => by
    by_cases hm : mn.method = m
    · by_cases hmt : (matchPath (methodCheckPath b mn.path) q).matched
      · simp only [findRouteNode, if_pos hm, if_pos hmt] at h
        have := Option.some.inj h
        subst this
        exact hm
      · simp only [findRouteNode, if_pos hm, if_neg hmt] at h
        exact Option.noConfusion h
    · simp only [findRouteNode, if_neg hm] at h
      exact Option.noConfusion h
  | ServerNode.other, m, q, b, mws, r, h => by
    simp only [findRouteNode] at h
    exact Option.noConfusion h

/-- Any resolved route binds exactly the queried method. -/
theorem findRoute_method_exact :
    ∀ (nodes : List ServerNode) (m q b : String) (mws : List MwProg)
      (r : MatchedRoute),
      findRoute nodes m q b mws = some r → r.node.method = m
  | [], _, _, _, _, _, h => by simp [findRoute] at h
  | node :: rest, m, q, b, mws, r, h => by
    simp only [findRoute] at h
    cases hn : findRouteNode node m q b mws with
    | some r₀ =>
      rw [hn] at h
      have := Option.some.inj h
      subst this
      exact findRouteNode_method_exact node m q b mws r₀ hn
    | none =>
      rw [hn] at h
      exact findRoute_method_exact rest m q b mws r h

end

/-- C10: dispatch uppercases the request method (defaulting to `GET`
when absent) before resolving, so a request method differing from an
endpoint's (uppercase) bound method only in letter case still resolves
to that endpoint, even though the resolver itself compares methods
exactly: a lowercase request reaches the `/h` handler while the
resolver, queried with the lowercase method directly, finds nothing. -/
theorem dispatch_method_case_insensitive :
    (∀ (srv : ServerRoot) (url : Option String) (m m' : String) (b : BodyIn),
      jsToUpper m = jsToUpper m' →
      handleRequest srv ⟨url, some m, b⟩ = handleRequest srv ⟨url, some m', b⟩) ∧
    (∀ (srv : ServerRoot) (url : Option String) (b : BodyIn),
      handleRequest srv ⟨url, none, b⟩ = handleRequest srv ⟨url, some "GET", b⟩) ∧
    (∀ (nodes : List ServerNode) (m q b : String) (mws : List MwProg)
      (r : MatchedRoute),
      findRoute nodes m q b mws = some r → r.node.method = m) ∧
    (handleRequest demoCaseTree ⟨some "/h", some "get", .chunksEnd []⟩).handlerInvoked =
      true ∧
    (findRoute demoCaseChildren "get" "/h" "" []).isSome = false := by
  refine ⟨?_, fun srv url b => rfl, findRoute_method_exact, by decide, by decide⟩
  intro srv url m m' b h
  simp only [handleRequest, Option.getD, h]

/-- Witness for `dispatch_method_case_insensitive` at `"get"`/`"GET"`. -/
theorem dispatch_method_case_insensitive_witness :
    handleRequest demoCaseTree ⟨some "/h", some "get", .chunksEnd []⟩ =
      handleRequest demoCaseTree ⟨some "/h", some "GET", .chunksEnd []⟩ :=
  dispatch_method_case_insensitive.1 demoCaseTree (some "/h") "get" "GET"
    (.chunksEnd []) (by decide)

/-- C1 (code bug): `authGuardMw` finalizes a 401 and never invokes its
continuation, and the chain is indeed short-circuited — only middleware
0 fires, `afterAuthMw` never runs — yet `handleRequest` still invokes
the terminal handler unconditionally once the top-level `next()`
resolves; only the `writableEnded` guard keeps the handler's return
value out of the already-finalized 401 response. -/
theorem handler_invoked_despite_short_circuit :
    (handleRequest protectedTree protectedReq).handlerInvoked = true ∧
    (handleRequest protectedTree protectedReq).firedMws = [0] ∧
    (handleRequest protectedTree protectedReq).res.statusCode = 401 ∧
    (handleRequest protectedTree protectedReq).res.chunks =
      ["\x7b\"error\":\"Unauthorized\"\x7d"] ∧
    (handleRequest protectedTree protectedReq).res.writableEnded = true := by
  decide
